import Mathlib

/-!
Shallow embedding of the circuit-construction and multi-stage evaluation
engine of `db_vs.py` (VERMICULAR vs standard Grover demo), together with
proofs of the specification claims about it.

Circuits are embedded as lists of atomic operations, exactly in the order
the Python code appends them to a braket `Circuit`; `len(circuit.instructions)`
becomes `List.length`.  Success rates are embedded as rationals (the Python
floats involved are exact quotients of sample counts).  The execution backend
is an opaque parameter, as the specification prescribes.
-/

namespace DbVs

/-- An atomic circuit operation, as appended by the Python code:
Hadamard (circuit.h i), bit-flip (circuit.x i), controlled-Z (circuit.cz i j). -/
inductive Op where
  | h (i : ℕ)
  | x (i : ℕ)
  | cz (i j : ℕ)
  deriving DecidableEq, Repr

/-- Initial uniform superposition: the two Hadamards opening both circuits. -/
def superpos : List Op := [Op.h 0, Op.h 1]

/-- The diffusion operator block appended once per Grover iteration. -/
def diffusion : List Op :=
  [Op.h 0, Op.h 1, Op.x 0, Op.x 1, Op.cz 0 1, Op.x 0, Op.x 1, Op.h 0, Op.h 1]

/-- Bit-flips emitted around the controlled-Z in the oracle: one flip on
unit i for every position i whose pattern bit is the character 0, in
position order (Python: for i, bit in enumerate(target): if bit == '0': x(i)). -/
def oracleFlips (target : List Char) : List Op :=
  (target.enum.filter (fun p => p.2 == '0')).map (fun p => Op.x p.1)

/-- Oracle for a target pattern (Python `_apply_oracle`): setup flips,
controlled-Z on units 0 and 1, then the same flips again to undo. -/
def apply_oracle (target : List Char) : List Op :=
  oracleFlips target ++ [Op.cz 0 1] ++ oracleFlips target

/-- One Grover iteration body: oracle then diffusion. -/
def grover_block (t : List Char) : List Op := apply_oracle t ++ diffusion

/-- Baseline circuit (Python `create_standard_grover`): superposition, then
`iterations` copies of oracle-plus-diffusion. -/
def create_standard_grover (t : List Char) (iterations : ℕ) : List Op :=
  superpos ++ (List.replicate iterations (grover_block t)).flatten

/-- Decoupling pulse on one unit: the same bit-flip twice in a row. -/
def ddPulse (i : ℕ) : List Op := [Op.x i, Op.x i]

/-- Decoupling pulses on every unit, in the order the code emits them
(x 0, x 0, x 1, x 1). -/
def ddAll : List Op := ddPulse 0 ++ ddPulse 1

/-- Body of iteration k of the Augmented loop: oracle, diffusion, and, when
`iterations > 1 and k < iterations - 1` in the Python source, the
inter-iteration decoupling pulses. -/
def vermIter (t : List Char) (iterations k : ℕ) : List Op :=
  grover_block t ++ (if 1 < iterations ∧ k < iterations - 1 then ddAll else [])

/-- Augmented circuit (Python `create_vermicular`): superposition, pre-oracle
pulses, the iteration loop, post-diffusion pulses. -/
def create_vermicular (t : List Char) (iterations : ℕ) : List Op :=
  superpos ++ ddAll ++ ((List.range iterations).map (vermIter t iterations)).flatten ++ ddAll

/-- Spec-side shape used for comparison (written from the spec's words, not
from the source): n copies of a block, with a pulse block strictly between
consecutive copies and nowhere else. -/
def blocksJoinedBy (block pulse : List Op) : ℕ → List Op
  | 0 => []
  | 1 => block
  | n + 2 => block ++ pulse ++ blocksJoinedBy block pulse (n + 1)

lemma map_range_eq_replicate (g : ℕ → List Op) (c : List Op) :
    ∀ m, (∀ k, k < m → g k = c) → (List.range m).map g = List.replicate m c := by
  intro m
  induction m with
  | zero => intro _; simp
  | succ m ih =>
    intro hc
    rw [List.range_succ, List.map_append, List.map_singleton, hc m (Nat.lt_succ_self m),
      ih (fun k hk => hc k (Nat.lt_succ_of_lt hk))]
    exact (List.replicate_succ' m c).symm

lemma blocksJoinedBy_succ_eq (b p : List Op) :
    ∀ m, blocksJoinedBy b p (m + 1) = (List.replicate m (b ++ p)).flatten ++ b := by
  intro m
  induction m with
  | zero => simp [blocksJoinedBy]
  | succ m ih =>
    simp only [blocksJoinedBy, ih, List.replicate_succ, List.flatten_cons, List.append_assoc]

lemma range_map_vermIter (t : List Char) (m : ℕ) :
    (List.range (m + 1)).map (vermIter t (m + 1)) =
      List.replicate m (grover_block t ++ ddAll) ++ [grover_block t] := by
  rw [List.range_succ, List.map_append, List.map_singleton]
  congr 1
  · apply map_range_eq_replicate
    intro k hk
    have hcond : 1 < m + 1 ∧ k < m + 1 - 1 := by omega
    simp only [vermIter, if_pos hcond]
  · have hcond : ¬ (1 < m + 1 ∧ m < m + 1 - 1) := by omega
    simp [vermIter, hcond]

lemma vermicular_structure (t : List Char) (n : ℕ) :
    create_vermicular t n =
      superpos ++ ddAll ++ blocksJoinedBy (grover_block t) ddAll n ++ ddAll := by
  cases n with
  | zero => simp [create_vermicular, blocksJoinedBy]
  | succ m =>
    unfold create_vermicular
    rw [range_map_vermIter, blocksJoinedBy_succ_eq]
    simp [List.append_assoc]

lemma join_replicate_eq_blocksJoinedBy (b : List Op) :
    ∀ n, (List.replicate n b).flatten = blocksJoinedBy b [] n := by
  intro n
  induction n with
  | zero => rfl
  | succ m ih =>
    cases m with
    | zero => simp [blocksJoinedBy]
    | succ m' =>
      rw [List.replicate_succ, List.flatten_cons, ih]
      simp [blocksJoinedBy]

lemma standard_structure (t : List Char) (n : ℕ) :
    create_standard_grover t n = superpos ++ blocksJoinedBy (grover_block t) [] n := by
  unfold create_standard_grover
  rw [join_replicate_eq_blocksJoinedBy]

/-- A single measurement outcome: one boolean per unit, as the backend
returns it.  Python turns it into a bit-string before comparing. -/
def toBitString (m : List Bool) : List Char :=
  m.map (fun b => if b then '1' else '0')

/-- Success-rate estimator (Python `measure_success_rate`, with the backend
sampling factored out): count of samples whose bit-string equals the target,
divided by the total number of samples. -/
def measure_success_rate (samples : List (List Bool)) (target : List Char) : ℚ :=
  ((samples.countP (fun m => toBitString m == target) : ℕ) : ℚ) / (samples.length : ℚ)

/-- Iteration count chosen for a stage (Python lines 193-199): the Baseline
branch compensates once the accumulated depth reaches 2, the Augmented
branch always passes 1. -/
def stage_iterations (std : Bool) (cumulativeDepth : ℕ) : ℕ :=
  if std then (if cumulativeDepth < 2 then 1 else 2) else 1

/-- Circuit built for one stage, given the accumulated depth so far. -/
def stage_circuit (std : Bool) (cumulativeDepth : ℕ) (t : List Char) : List Op :=
  if std then create_standard_grover t (stage_iterations std cumulativeDepth)
  else create_vermicular t 1

/-- Record of one stage of a pass: the iteration count used, the depth
(operation count) of the circuit built, and the measured success rate. -/
structure StageOut where
  iters : ℕ
  depth : ℕ
  rate : ℚ
  deriving DecidableEq, Repr

/-- Stage loop of `run_multi_stage_search`: for each target in catalog order,
choose the iteration count from the accumulated depth, build the circuit,
obtain its success rate from the opaque backend `measure`, record the stage,
and add the circuit's operation count to the accumulated depth. -/
def runStagesAux (measure : List Op → ℚ) (std : Bool) :
    List (List Char) → ℕ → List StageOut
  | [], _ => []
  | t :: ts, d =>
    { iters := stage_iterations std d
      depth := (stage_circuit std d t).length
      rate := measure (stage_circuit std d t) }
      :: runStagesAux measure std ts (d + (stage_circuit std d t).length)

/-- Embedding of numpy.prod as the code uses it: fold multiplication over
the stage rates starting from 1. -/
def npProd (l : List ℚ) : ℚ := l.foldl (· * ·) 1

/-- One full pass of `run_multi_stage_search`: the stage records (with the
accumulated-depth counter starting at 0) and the total success, computed as
numpy.prod of the stage success rates. -/
def run_multi_stage_search (measure : List Op → ℚ) (std : Bool)
    (targets : List (List Char)) : List StageOut × ℚ :=
  (runStagesAux measure std targets 0,
    npProd ((runStagesAux measure std targets 0).map StageOut.rate))

/-- Circuits submitted to the execution backend during a pass, one per stage:
each stage unconditionally builds its circuit and performs exactly one
`device.run` call inside `measure_success_rate`; no validation precedes it. -/
def passSubmissions (std : Bool) : List (List Char) → ℕ → List (List Op)
  | [], _ => []
  | t :: ts, d =>
    stage_circuit std d t :: passSubmissions std ts (d + (stage_circuit std d t).length)

/-- Result of a ratio in the final comparison: a finite value or the
infinite sentinel float('inf'). -/
inductive Advantage where
  | fin (q : ℚ)
  | inf
  deriving DecidableEq, Repr

/-- Ratio Augmented-rate / Baseline-rate as the code computes it
(Python lines 289 and 296): ver / std when std > 0, else the infinite
sentinel; division is never attempted when std is not positive. -/
def advantage (stdRate verRate : ℚ) : Advantage :=
  if 0 < stdRate then Advantage.fin (verRate / stdRate) else Advantage.inf

/-- Final comparison (`display_final_comparison`): the per-stage advantage
ratios, paired stage by stage, and the overall improvement ratio of the
two totals, under the same zero-handling rule. -/
def display_final_comparison (stdStages verStages : List ℚ)
    (stdTotal verTotal : ℚ) : List Advantage × Advantage :=
  (List.zipWith advantage stdStages verStages, advantage stdTotal verTotal)

/-- One step of the right-to-left scan deleting decoupling-pulse pairs:
an incoming bit-flip cancels against an identical bit-flip at the head of
the already-processed suffix; every other operation is kept. -/
def step (a : Op) (s : List Op) : List Op :=
  match a, s with
  | Op.x i, Op.x j :: t => if i = j then t else Op.x i :: Op.x j :: t
  | _, _ => a :: s

/-- Deletion of all adjacent identical bit-flip pairs (decoupling pulses)
from a circuit. -/
def cancelDD (l : List Op) : List Op := l.foldr step []

/-- Adjacency predicate: two consecutive operations do not form a
decoupling pulse (an identical bit-flip pair). -/
def okAdjB : Op → Op → Bool
  | Op.x i, Op.x j => i != j
  | _, _ => true

def okRel (a b : Op) : Prop := okAdjB a b = true

instance (a b : Op) : Decidable (okRel a b) :=
  inferInstanceAs (Decidable (okAdjB a b = true))

lemma okRel_h_right (a : Op) (k : ℕ) : okRel a (Op.h k) := by
  cases a <;> rfl

lemma okRel_cz_right (a : Op) (i j : ℕ) : okRel a (Op.cz i j) := by
  cases a <;> rfl

lemma okRel_h_left (b : Op) (k : ℕ) : okRel (Op.h k) b := by
  cases b <;> rfl

lemma okRel_cz_left (b : Op) (i j : ℕ) : okRel (Op.cz i j) b := by
  cases b <;> rfl

lemma step_push (a : Op) (s : List Op)
    (hok : ∀ y, s.head? = some y → okRel a y) :
    step a s = a :: s := by
  cases a with
  | h i => rfl
  | cz i j => rfl
  | x i =>
    cases s with
    | nil => rfl
    | cons b t =>
      cases b with
      | h k => rfl
      | cz k l => rfl
      | x j =>
        have hrel := hok (Op.x j) rfl
        have hij : i ≠ j := by simpa [okRel, okAdjB] using hrel
        simp [step, hij]

lemma head?_append_take (l s : List Op) : (l ++ s.take 1).head? = (l ++ s).head? := by
  cases l with
  | nil => cases s <;> rfl
  | cons a l' => rfl

lemma foldr_step_push : ∀ (l s : List Op),
    List.Chain' okRel (l ++ s.take 1) → List.foldr step s l = l ++ s := by
  intro l
  induction l with
  | nil => intro s _; simp
  | cons a l ih =>
    intro s hchain
    rw [List.cons_append] at hchain
    obtain ⟨hhead, htail⟩ := List.chain'_cons'.mp hchain
    rw [List.foldr_cons, ih s htail]
    apply step_push
    intro y hy
    apply hhead
    rw [Option.mem_def, head?_append_take]
    exact hy

/-- The suffix does not itself begin with a decoupling pulse. -/
def noXXhead (s : List Op) : Prop := ∀ i t', s ≠ Op.x i :: Op.x i :: t'

lemma noXXhead_nil : noXXhead [] := by
  intro i t' h
  exact List.noConfusion h

lemma pulse_cancel (i : ℕ) (s : List Op) (hs : noXXhead s) :
    List.foldr step s (ddPulse i) = s := by
  show step (Op.x i) (step (Op.x i) s) = s
  cases s with
  | nil => simp [step]
  | cons b t =>
    cases b with
    | h k => simp [step]
    | cz k l => simp [step]
    | x j =>
      by_cases hij : i = j
      · subst hij
        cases t with
        | nil => simp [step]
        | cons c t' =>
          cases c with
          | h k => simp [step]
          | cz k l => simp [step]
          | x m =>
            by_cases him : i = m
            · exact absurd (by rw [him]) (hs m t')
            · simp [step, him]
      · simp [step, hij]

lemma ddAll_cancel (s : List Op) (hs : noXXhead s) :
    List.foldr step s ddAll = s := by
  show List.foldr step s (ddPulse 0 ++ ddPulse 1) = s
  rw [List.foldr_append, pulse_cancel 1 s hs, pulse_cancel 0 s hs]

lemma le_fst_of_mem_enumFrom : ∀ (t : List Char) (k : ℕ) (p : ℕ × Char),
    p ∈ List.enumFrom k t → k ≤ p.1 := by
  intro t
  induction t with
  | nil => intro k p hp; simp [List.enumFrom] at hp
  | cons c cs ih =>
    intro k p hp
    rcases List.mem_cons.mp hp with hp | hp
    · subst hp; exact le_refl k
    · exact Nat.le_of_succ_le (ih (k + 1) p hp)

lemma pairwise_lt_enumFrom : ∀ (t : List Char) (k : ℕ),
    List.Pairwise (fun p q : ℕ × Char => p.1 < q.1) (List.enumFrom k t) := by
  intro t
  induction t with
  | nil => intro k; simp [List.enumFrom]
  | cons c cs ih =>
    intro k
    refine List.pairwise_cons.mpr ⟨?_, ih (k + 1)⟩
    intro q hq
    exact Nat.lt_of_succ_le (le_fst_of_mem_enumFrom cs (k + 1) q hq)

lemma pairwise_okRel_oracleFlips (t : List Char) :
    List.Pairwise okRel (oracleFlips t) := by
  unfold oracleFlips
  apply List.Pairwise.map (fun p : ℕ × Char => Op.x p.1)
    (S := okRel) (R := fun p q : ℕ × Char => p.1 < q.1)
  · intro p q hpq
    show okAdjB (Op.x p.1) (Op.x q.1) = true
    simpa [okAdjB] using Nat.ne_of_lt hpq
  · exact ((pairwise_lt_enumFrom t 0).sublist (List.filter_sublist _))

lemma chain'_oracleFlips (t : List Char) : List.Chain' okRel (oracleFlips t) :=
  (pairwise_okRel_oracleFlips t).chain'

lemma chain'_oracle (t : List Char) : List.Chain' okRel (apply_oracle t) := by
  unfold apply_oracle
  rw [List.append_assoc]
  refine List.chain'_append.mpr ⟨chain'_oracleFlips t, ?_, ?_⟩
  · refine List.chain'_append.mpr ⟨List.chain'_singleton _, chain'_oracleFlips t, ?_⟩
    · intro a ha b hb
      simp at ha
      subst ha
      exact okRel_cz_left b 0 1
  · intro a ha b hb
    simp at hb
    subst hb
    exact okRel_cz_right a 0 1

lemma chain'_diffusion : List.Chain' okRel diffusion := by
  unfold diffusion
  repeat constructor

lemma chain'_grover (t : List Char) : List.Chain' okRel (grover_block t) := by
  unfold grover_block
  refine List.chain'_append.mpr ⟨chain'_oracle t, chain'_diffusion, ?_⟩
  intro a ha b hb
  simp [diffusion] at hb
  subst hb
  exact okRel_h_right a 0

lemma getLast?_append_diffusion (l : List Op) :
    (l ++ diffusion).getLast? = some (Op.h 1) := by
  have hd : l ++ diffusion =
      (l ++ [Op.h 0, Op.h 1, Op.x 0, Op.x 1, Op.cz 0 1, Op.x 0, Op.x 1, Op.h 0]) ++
        [Op.h 1] := by
    simp [diffusion]
  rw [hd, List.getLast?_concat]

lemma chain'_take_one (s : List Op) : List.Chain' okRel (s.take 1) := by
  cases s with
  | nil => simp
  | cons a s' => simp

lemma chain'_grover_append_take (t : List Char) (s : List Op) :
    List.Chain' okRel (grover_block t ++ s.take 1) := by
  refine List.chain'_append.mpr ⟨chain'_grover t, chain'_take_one s, ?_⟩
  intro a ha b hb
  rw [Option.mem_def, grover_block, getLast?_append_diffusion] at ha
  cases ha
  exact okRel_h_left b 1

lemma foldr_step_grover (t : List Char) (s : List Op) :
    List.foldr step s (grover_block t) = grover_block t ++ s :=
  foldr_step_push (grover_block t) s (chain'_grover_append_take t s)

lemma foldr_step_superpos (s : List Op) :
    List.foldr step s superpos = superpos ++ s := by
  apply foldr_step_push
  refine List.chain'_append.mpr ⟨?_, chain'_take_one s, ?_⟩
  · unfold superpos
    repeat constructor
  intro a ha b hb
  simp [superpos] at ha
  subst ha
  exact okRel_h_left b 1

lemma noXXhead_oracle_append (t : List Char) (r : List Op) :
    noXXhead (apply_oracle t ++ r) := by
  intro i t' heq
  unfold apply_oracle at heq
  cases hf : oracleFlips t with
  | nil =>
    rw [hf] at heq
    simp at heq
  | cons f fs =>
    cases fs with
    | nil =>
      rw [hf] at heq
      simp at heq
    | cons f2 fs2 =>
      have hp := pairwise_okRel_oracleFlips t
      rw [hf] at hp
      have hne : okRel f f2 :=
        (List.pairwise_cons.mp hp).1 f2 (List.mem_cons_self f2 fs2)
      rw [hf] at heq
      simp only [List.cons_append, List.append_assoc] at heq
      injection heq with h1 heq'
      injection heq' with h2 _
      rw [h1, h2] at hne
      simp [okRel, okAdjB] at hne

lemma noXXhead_grover_append (t : List Char) (r : List Op) :
    noXXhead (grover_block t ++ r) := by
  have h := noXXhead_oracle_append t (diffusion ++ r)
  simpa [grover_block, List.append_assoc] using h

lemma noXXhead_flatten_replicate_grover (t : List Char) :
    ∀ n, noXXhead ((List.replicate n (grover_block t)).flatten) := by
  intro n
  cases n with
  | zero => exact noXXhead_nil
  | succ m =>
    rw [List.replicate_succ, List.flatten_cons]
    exact noXXhead_grover_append t _

lemma foldr_step_blocksJoined (t : List Char) :
    ∀ n, List.foldr step [] (blocksJoinedBy (grover_block t) ddAll n) =
      (List.replicate n (grover_block t)).flatten := by
  intro n
  induction n with
  | zero => rfl
  | succ m ih =>
    cases m with
    | zero =>
      show List.foldr step [] (grover_block t) = _
      rw [foldr_step_grover]
      simp
    | succ m' =>
      show List.foldr step []
        (grover_block t ++ ddAll ++ blocksJoinedBy (grover_block t) ddAll (m' + 1)) = _
      rw [List.append_assoc, List.foldr_append, List.foldr_append, ih,
        ddAll_cancel _ (noXXhead_flatten_replicate_grover t (m' + 1)),
        foldr_step_grover]
      simp [List.replicate_succ, List.flatten_cons]

lemma cancelDD_vermicular (t : List Char) (n : ℕ) :
    cancelDD (create_vermicular t n) = create_standard_grover t n := by
  rw [vermicular_structure]
  unfold cancelDD
  simp only [List.append_assoc]
  rw [List.foldr_append, List.foldr_append, List.foldr_append,
    ddAll_cancel [] noXXhead_nil, foldr_step_blocksJoined,
    ddAll_cancel _ (noXXhead_flatten_replicate_grover t n),
    foldr_step_superpos]
  rfl

/-- Computational basis state of the unit register: one boolean per unit
index (the register is unbounded, matching braket's implicit widening). -/
def BasisState := ℕ → Bool

/-- Unnormalized amplitude vector over basis states; rational coefficients
suffice for the identities proved here (each Hadamard carries an implicit
global scale that cancels from both sides of every equation below). -/
def QState := BasisState → ℚ

/-- Flip the bit of unit i. -/
def flipAt (i : ℕ) (b : BasisState) : BasisState :=
  Function.update b i (!(b i))

/-- Action of one operation on an amplitude vector. -/
def applyOp : Op → QState → QState
  | Op.h i, ψ => fun b =>
      ψ (Function.update b i false) + (if b i then (-1 : ℚ) else 1) * ψ (Function.update b i true)
  | Op.x i, ψ => fun b => ψ (flipAt i b)
  | Op.cz i j, ψ => fun b => if b i && b j then -(ψ b) else ψ b

/-- Action of a circuit, first operation applied first. -/
def applyC : List Op → QState → QState
  | [], ψ => ψ
  | a :: l, ψ => applyC l (applyOp a ψ)

lemma applyC_append (l₁ l₂ : List Op) :
    ∀ ψ : QState, applyC (l₁ ++ l₂) ψ = applyC l₂ (applyC l₁ ψ) := by
  induction l₁ with
  | nil => intro ψ; rfl
  | cons a l ih => intro ψ; exact ih (applyOp a ψ)

lemma flipAt_flipAt (i : ℕ) (b : BasisState) : flipAt i (flipAt i b) = b := by
  funext j
  by_cases hj : j = i
  · subst hj
    simp [flipAt]
  · simp [flipAt, Function.update_noteq hj]

lemma applyOp_x_x (i : ℕ) (ψ : QState) :
    applyOp (Op.x i) (applyOp (Op.x i) ψ) = ψ := by
  funext b
  show ψ (flipAt i (flipAt i b)) = ψ b
  rw [flipAt_flipAt]

lemma applyC_step (a : Op) (s : List Op) (ψ : QState) :
    applyC (step a s) ψ = applyC (a :: s) ψ := by
  cases a with
  | h i => rfl
  | cz i j => rfl
  | x i =>
    cases s with
    | nil => rfl
    | cons bop t =>
      cases bop with
      | h k => rfl
      | cz k l => rfl
      | x j =>
        by_cases hij : i = j
        · subst hij
          show applyC (if i = i then t else _) ψ = _
          rw [if_pos rfl]
          show applyC t ψ = applyC t (applyOp (Op.x i) (applyOp (Op.x i) ψ))
          rw [applyOp_x_x]
        · show applyC (if i = j then t else Op.x i :: Op.x j :: t) ψ = _
          rw [if_neg hij]

lemma applyC_cancelDD (l : List Op) : ∀ ψ : QState, applyC (cancelDD l) ψ = applyC l ψ := by
  induction l with
  | nil => intro ψ; rfl
  | cons a l ih =>
    intro ψ
    show applyC (step a (cancelDD l)) ψ = applyC (a :: l) ψ
    rw [applyC_step]
    show applyC (cancelDD l) (applyOp a ψ) = applyC l (applyOp a ψ)
    exact ih (applyOp a ψ)

/-- Positions flipped by the oracle: the first components kept by the
oracle's filter over the enumerated pattern. -/
def flipIdxs (t : List Char) : List ℕ :=
  ((t.enum.filter (fun p => p.2 == '0')).map Prod.fst)

lemma oracleFlips_eq_map_x (t : List Char) :
    oracleFlips t = (flipIdxs t).map Op.x := by
  unfold oracleFlips flipIdxs
  rw [List.map_map]
  rfl

/-- Composite basis flip performed by a list of bit-flip positions. -/
def foldFlips (l : List ℕ) (b : BasisState) : BasisState :=
  l.foldr flipAt b

lemma applyC_map_x (l : List ℕ) :
    ∀ ψ : QState, applyC (l.map Op.x) ψ = fun b => ψ (foldFlips l b) := by
  induction l with
  | nil => intro ψ; rfl
  | cons i l ih =>
    intro ψ
    show applyC (l.map Op.x) (applyOp (Op.x i) ψ) = _
    rw [ih]
    rfl

lemma flipAt_comm (i j : ℕ) (b : BasisState) :
    flipAt i (flipAt j b) = flipAt j (flipAt i b) := by
  by_cases hij : i = j
  · subst hij; rfl
  · funext k
    by_cases hki : k = i
    · subst hki
      simp [flipAt, Function.update_noteq hij, Function.update_noteq (Ne.symm hij)]
    · by_cases hkj : k = j
      · subst hkj
        simp [flipAt, Function.update_noteq hij, Function.update_noteq (Ne.symm hij)]
      · simp [flipAt, Function.update_noteq hki, Function.update_noteq hkj]

lemma foldFlips_flipAt (l : List ℕ) (i : ℕ) (b : BasisState) :
    foldFlips l (flipAt i b) = flipAt i (foldFlips l b) := by
  induction l with
  | nil => rfl
  | cons j l ih =>
    show flipAt j (foldFlips l (flipAt i b)) = flipAt i (flipAt j (foldFlips l b))
    rw [ih, flipAt_comm]

lemma foldFlips_foldFlips (l : List ℕ) (b : BasisState) :
    foldFlips l (foldFlips l b) = b := by
  induction l generalizing b with
  | nil => rfl
  | cons i l ih =>
    show flipAt i (foldFlips l (flipAt i (foldFlips l b))) = b
    rw [foldFlips_flipAt, flipAt_flipAt, ih]

/-- Sign applied by the controlled-Z on units 0 and 1. -/
def czSign (b : BasisState) : ℚ := if b 0 && b 1 then -1 else 1

lemma applyC_cz (ψ : QState) :
    applyC [Op.cz 0 1] ψ = fun b => czSign b * ψ b := by
  funext b
  show (if b 0 && b 1 then -(ψ b) else ψ b) = czSign b * ψ b
  unfold czSign
  by_cases hb : b 0 && b 1
  · simp [hb]
  · simp [hb]

lemma applyC_oracle (t : List Char) (ψ : QState) :
    applyC (apply_oracle t) ψ = fun b => czSign (foldFlips (flipIdxs t) b) * ψ b := by
  unfold apply_oracle
  rw [applyC_append, applyC_append, oracleFlips_eq_map_x, applyC_map_x, applyC_cz,
    applyC_map_x]
  funext b
  show czSign (foldFlips (flipIdxs t) b) *
      ψ (foldFlips (flipIdxs t) (foldFlips (flipIdxs t) b)) = _
  rw [foldFlips_foldFlips]

lemma czSign_mul_self (b : BasisState) : czSign b * czSign b = 1 := by
  unfold czSign
  by_cases hb : b 0 && b 1
  · simp [hb]
  · simp [hb]

lemma applyC_oracle_twice (t : List Char) (ψ : QState) :
    applyC (apply_oracle t ++ apply_oracle t) ψ = ψ := by
  rw [applyC_append, applyC_oracle, applyC_oracle]
  funext b
  show czSign (foldFlips (flipIdxs t) b) * (czSign (foldFlips (flipIdxs t) b) * ψ b) = ψ b
  rw [← mul_assoc, czSign_mul_self, one_mul]

lemma runStagesAux_cons (measure : List Op → ℚ) (std : Bool) (t : List Char)
    (ts : List (List Char)) (d : ℕ) :
    runStagesAux measure std (t :: ts) d =
      { iters := stage_iterations std d
        depth := (stage_circuit std d t).length
        rate := measure (stage_circuit std d t) }
        :: runStagesAux measure std ts (d + (stage_circuit std d t).length) := rfl

lemma runStagesAux_get_iters (measure : List Op → ℚ) (std : Bool) :
    ∀ (ts : List (List Char)) (d k : ℕ) (hk : k < (runStagesAux measure std ts d).length),
      ((runStagesAux measure std ts d).get ⟨k, hk⟩).iters =
        stage_iterations std
          (d + (((runStagesAux measure std ts d).take k).map StageOut.depth).sum) := by
  intro ts
  induction ts with
  | nil =>
    intro d k hk
    simp [runStagesAux] at hk
  | cons t ts ih =>
    intro d k hk
    cases k with
    | zero =>
      simp [runStagesAux_cons]
    | succ k =>
      have hk' : k < (runStagesAux measure std ts (d + (stage_circuit std d t).length)).length := by
        rw [runStagesAux_cons] at hk
        simpa using hk
      have hstep : ((runStagesAux measure std (t :: ts) d).get ⟨k + 1, hk⟩).iters =
          ((runStagesAux measure std ts (d + (stage_circuit std d t).length)).get
            ⟨k, hk'⟩).iters := rfl
      rw [hstep, ih (d + (stage_circuit std d t).length) k hk']
      have hsum : d + (((runStagesAux measure std (t :: ts) d).take (k + 1)).map
            StageOut.depth).sum =
          (d + (stage_circuit std d t).length) +
            (((runStagesAux measure std ts (d + (stage_circuit std d t).length)).take k).map
              StageOut.depth).sum := by
        rw [runStagesAux_cons, List.take_succ_cons, List.map_cons, List.sum_cons]
        dsimp only
        omega
      rw [hsum]

lemma foldl_mul_eq (l : List ℚ) : ∀ a : ℚ, l.foldl (· * ·) a = a * l.prod := by
  induction l with
  | nil => intro a; simp
  | cons x l ih =>
    intro a
    rw [List.foldl_cons, ih, List.prod_cons, mul_assoc]

lemma npProd_eq_prod (l : List ℚ) : npProd l = l.prod := by
  unfold npProd
  rw [foldl_mul_eq, one_mul]

lemma prod_nonneg_of (l : List ℚ) (h : ∀ r ∈ l, 0 ≤ r) : 0 ≤ l.prod := by
  induction l with
  | nil => simp
  | cons x l ih =>
    rw [List.prod_cons]
    exact mul_nonneg (h x (List.mem_cons_self x l))
      (ih (fun r hr => h r (List.mem_cons_of_mem x hr)))

lemma zipWith_getElem?_eq :
    ∀ (l₁ l₂ : List ℚ) (k : ℕ) (a b : ℚ), l₁[k]? = some a → l₂[k]? = some b →
      (List.zipWith advantage l₁ l₂)[k]? = some (advantage a b) := by
  intro l₁
  induction l₁ with
  | nil =>
    intro l₂ k a b ha
    simp at ha
  | cons x l ih =>
    intro l₂ k a b ha hb
    cases l₂ with
    | nil => simp at hb
    | cons y l₂ =>
      cases k with
      | zero =>
        rw [List.getElem?_cons_zero] at ha hb
        cases ha
        cases hb
        rw [List.zipWith_cons_cons, List.getElem?_cons_zero]
      | succ k =>
        rw [List.getElem?_cons_succ] at ha hb
        rw [List.zipWith_cons_cons, List.getElem?_cons_succ]
        exact ih l₂ k a b ha hb

/-- Positions of the pattern whose bit is the character 0, stated from the
spec's words over index ranges rather than the source's enumerate loop
(every index comes from the range of valid positions, so the lookup
default is never consulted). -/
def zeroPositions (t : List Char) : List ℕ :=
  (List.range t.length).filter (fun i => t.getD i '1' == '0')

/-- Spec-side oracle shape: flips at the zero positions, the conditional
phase across all units, the same flips again in position order. -/
def oracleSpecShape (t : List Char) : List Op :=
  (zeroPositions t).map Op.x ++ [Op.cz 0 1] ++ (zeroPositions t).map Op.x

/-- Positional recursion computing the oracle's flip list directly. -/
def flipsFrom : ℕ → List Char → List Op
  | _, [] => []
  | i, c :: cs => (if c == '0' then [Op.x i] else []) ++ flipsFrom (i + 1) cs

lemma enumFrom_flips_eq (t : List Char) : ∀ k : ℕ,
    ((List.enumFrom k t).filter (fun p => p.2 == '0')).map (fun p => Op.x p.1) =
      flipsFrom k t := by
  induction t with
  | nil => intro k; rfl
  | cons c cs ih =>
    intro k
    show (((k, c) :: List.enumFrom (k + 1) cs).filter (fun p => p.2 == '0')).map
        (fun p => Op.x p.1) = flipsFrom k (c :: cs)
    cases hc : (c == '0') with
    | true => simp [List.filter_cons, hc, flipsFrom, ih]
    | false => simp [List.filter_cons, hc, flipsFrom, ih]

lemma oracleFlips_eq_flipsFrom (t : List Char) : oracleFlips t = flipsFrom 0 t :=
  enumFrom_flips_eq t 0

lemma range_flips_eq (t : List Char) : ∀ k : ℕ,
    ((List.range t.length).filter (fun i => t.getD i '1' == '0')).map
      (fun i => Op.x (i + k)) = flipsFrom k t := by
  induction t with
  | nil => intro k; rfl
  | cons c cs ih =>
    intro k
    rw [List.length_cons, List.range_succ_eq_map, List.filter_cons]
    have hshift : List.filter (fun i => (c :: cs).getD i '1' == '0')
        ((List.range cs.length).map Nat.succ) =
        (List.filter (fun i => cs.getD i '1' == '0') (List.range cs.length)).map
          Nat.succ := by
      rw [List.filter_map]
      rfl
    have hmap : ((List.filter (fun i => cs.getD i '1' == '0')
        (List.range cs.length)).map Nat.succ).map (fun i => Op.x (i + k)) =
        (List.filter (fun i => cs.getD i '1' == '0')
          (List.range cs.length)).map (fun i => Op.x (i + (k + 1))) := by
      rw [List.map_map]
      apply List.map_congr_left
      intro i _
      show Op.x (i + 1 + k) = Op.x (i + (k + 1))
      congr 1
      omega
    cases hc : (c == '0') with
    | true =>
      have hcond : ((c :: cs).getD 0 '1' == '0') = true := hc
      rw [if_pos hcond, List.map_cons, hshift, hmap, ih (k + 1)]
      show Op.x (0 + k) :: flipsFrom (k + 1) cs = flipsFrom k (c :: cs)
      simp [flipsFrom, hc]
    | false =>
      have hcond : ¬ (((c :: cs).getD 0 '1' == '0') = true) := by
        intro hcontra
        rw [show ((c :: cs).getD 0 '1' == '0') = (c == '0') from rfl, hc] at hcontra
        exact Bool.noConfusion hcontra
      rw [if_neg hcond, hshift, hmap, ih (k + 1)]
      simp [flipsFrom, hc]

lemma zeroPositions_map_x (t : List Char) :
    (zeroPositions t).map Op.x = oracleFlips t := by
  rw [oracleFlips_eq_flipsFrom, ← range_flips_eq t 0]
  unfold zeroPositions
  apply List.map_congr_left
  intro i _
  rw [Nat.add_zero]

lemma oracleSpecShape_eq (t : List Char) : apply_oracle t = oracleSpecShape t := by
  unfold apply_oracle oracleSpecShape
  rw [zeroPositions_map_x]

/-- C1: in a StageSequencer pass (accumulated depth starting at 0), the
Baseline strategy uses iteration count 1 for stage k exactly when the sum
of the operation counts of the circuits built in prior stages of the same
pass is below 2, and 2 otherwise, while the Augmented strategy uses
iteration count 1 for every stage regardless of accumulated depth. -/
theorem c1_stage_iteration_policy (measure : List Op → ℚ)
    (targets : List (List Char)) (k : ℕ)
    (hk : k < (run_multi_stage_search measure true targets).1.length)
    (hk2 : k < (run_multi_stage_search measure false targets).1.length) :
    ((run_multi_stage_search measure true targets).1.get ⟨k, hk⟩).iters =
      (if ((((run_multi_stage_search measure true targets).1.take k).map
          StageOut.depth).sum < 2) then 1 else 2) ∧
    ((run_multi_stage_search measure false targets).1.get ⟨k, hk2⟩).iters = 1 := by
  constructor
  · show ((runStagesAux measure true targets 0).get ⟨k, hk⟩).iters = _
    rw [runStagesAux_get_iters measure true targets 0 k hk, Nat.zero_add]
    rfl
  · show ((runStagesAux measure false targets 0).get ⟨k, hk2⟩).iters = _
    rw [runStagesAux_get_iters measure false targets 0 k hk2]
    rfl

theorem c1_stage_iteration_policy_witness :
    ((run_multi_stage_search (fun _ => (1 : ℚ)/2) true [['0','0'],['1','1'],['1','0']]).1.get
        ⟨1, by decide⟩).iters =
      (if ((((run_multi_stage_search (fun _ => (1 : ℚ)/2) true
          [['0','0'],['1','1'],['1','0']]).1.take 1).map StageOut.depth).sum < 2)
        then 1 else 2) ∧
    ((run_multi_stage_search (fun _ => (1 : ℚ)/2) false [['0','0'],['1','1'],['1','0']]).1.get
        ⟨1, by decide⟩).iters = 1 :=
  c1_stage_iteration_policy (fun _ => (1 : ℚ)/2) [['0','0'],['1','1'],['1','0']] 1
    (by decide) (by decide)

/-- C2: for every target pattern and iteration count, the Augmented circuit
is exactly the Baseline structure (initial superposition followed by the
iteration blocks, each oracle-then-diffusion) with decoupling pulses on
every unit inserted at exactly three kinds of points: after the initial
superposition and before the first oracle, strictly between consecutive
iterations (never after the last), and once after the final diffusion;
nothing else differs from Baseline. -/
theorem c2_augmented_pulse_insertion (t : List Char) (n : ℕ) :
    create_vermicular t n =
      superpos ++ ddAll ++ blocksJoinedBy (grover_block t) ddAll n ++ ddAll ∧
    create_standard_grover t n = superpos ++ blocksJoinedBy (grover_block t) [] n :=
  ⟨vermicular_structure t n, standard_structure t n⟩

/-- C3: the oracle's operation sequence is a bit-flip on each unit whose
pattern bit is the character 0 (in position order), one conditional-phase
primitive across the units, then the same bit-flips again; the
construction is a pure function of the pattern, so two calls with the same
pattern produce operation-for-operation identical sequences. -/
theorem c3_oracle_shape (t : List Char) :
    apply_oracle t = oracleSpecShape t ∧
    ∀ t' : List Char, t' = t → apply_oracle t' = apply_oracle t := by
  refine ⟨oracleSpecShape_eq t, ?_⟩
  intro t' ht
  rw [ht]

/-- C4: a run's total success is the exact product of its stage success
rates, and appending a further stage whose rate lies in the unit interval
never increases the total (all prior rates lying in the unit interval). -/
theorem c4_total_success_product :
    (∀ (measure : List Op → ℚ) (std : Bool) (targets : List (List Char)),
      (run_multi_stage_search measure std targets).2 =
        (((run_multi_stage_search measure std targets).1).map StageOut.rate).prod) ∧
    ∀ (rates : List ℚ) (r : ℚ), (∀ a ∈ rates, 0 ≤ a ∧ a ≤ 1) → 0 ≤ r → r ≤ 1 →
      npProd (rates ++ [r]) ≤ npProd rates := by
  constructor
  · intro measure std targets
    exact npProd_eq_prod _
  · intro rates r hall hr0 hr1
    rw [npProd_eq_prod, npProd_eq_prod, List.prod_append, List.prod_cons, List.prod_nil,
      mul_one]
    exact mul_le_of_le_one_right
      (prod_nonneg_of rates (fun a ha => (hall a ha).1)) hr1

theorem c4_total_success_product_witness :
    npProd ([(1 : ℚ)/2] ++ [(1 : ℚ)/3]) ≤ npProd [(1 : ℚ)/2] :=
  c4_total_success_product.2 [(1 : ℚ)/2] ((1 : ℚ)/3) (by norm_num) (by norm_num)
    (by norm_num)

/-- C5: for a non-empty sample multiset, the estimator returns exactly the
number of samples whose bit-string equals the target divided by the total
number of samples, a rational number in the unit interval. -/
theorem c5_success_rate_exact (samples : List (List Bool)) (target : List Char)
    (hne : samples ≠ []) :
    measure_success_rate samples target =
      ((samples.filter (fun m => toBitString m == target)).length : ℚ) /
        (samples.length : ℚ) ∧
    0 ≤ measure_success_rate samples target ∧
    measure_success_rate samples target ≤ 1 := by
  have hlen : (0 : ℚ) < (samples.length : ℚ) := by
    exact_mod_cast Nat.pos_of_ne_zero (fun h => hne (List.length_eq_zero.mp h))
  refine ⟨?_, ?_, ?_⟩
  · unfold measure_success_rate
    rw [List.countP_eq_length_filter]
  · exact div_nonneg (Nat.cast_nonneg _) (Nat.cast_nonneg _)
  · unfold measure_success_rate
    rw [div_le_one hlen]
    exact_mod_cast List.countP_le_length (fun m => toBitString m == target)

theorem c5_success_rate_exact_witness :
    measure_success_rate [[true, true]] ['1','1'] =
      (([[true, true]].filter (fun m => toBitString m == ['1','1'])).length : ℚ) /
        (([[true, true]] : List (List Bool)).length : ℚ) ∧
    0 ≤ measure_success_rate [[true, true]] ['1','1'] ∧
    measure_success_rate [[true, true]] ['1','1'] ≤ 1 :=
  c5_success_rate_exact [[true, true]] ['1','1'] (by decide)

/-- C6 counterexample: a stage whose target pattern length differs from the
unit count (2) does not abort: the code performs no validation, builds the
circuit, and submits it to the backend (exactly one submission is recorded
for the stage), contradicting the claim that the stage fails with a
configuration error before any backend call. -/
theorem c6_counterexample :
    (['0','0','0'] : List Char).length ≠ 2 ∧
      (passSubmissions true [['0','0','0']] 0).length = 1 :=
  ⟨by decide, rfl⟩

/-- C6 amended: no configuration check exists in the code; every stage,
including one whose target pattern length differs from the unit count,
builds its circuit and makes exactly one backend call, and nothing is
retried (one submission per stage, never zero, never more). -/
theorem c6_no_validation_one_call_per_stage (std : Bool) :
    ∀ (targets : List (List Char)) (d : ℕ),
      (passSubmissions std targets d).length = targets.length := by
  intro targets
  induction targets with
  | nil => intro d; rfl
  | cons t ts ih =>
    intro d
    show (stage_circuit std d t :: passSubmissions std ts _).length = _
    rw [List.length_cons, ih, List.length_cons]

/-- C7: over two completed runs, the reporter produces per stage the ratio
Augmented-rate / Baseline-rate, yielding the infinite sentinel whenever the
Baseline rate is exactly zero (in particular when the Augmented rate is
not), and the overall ratio of totals under the same rule; the guard means
a zero Baseline value never reaches the division (the function is total). -/
theorem c7_comparison_ratio (ss vs : List ℚ) (st vt : ℚ)
    (hss : ∀ r ∈ ss, 0 ≤ r) (hst : 0 ≤ st) :
    (∀ (k : ℕ) (a b : ℚ), ss[k]? = some a → vs[k]? = some b →
      ((a = 0 → b ≠ 0 →
          (display_final_comparison ss vs st vt).1[k]? = some Advantage.inf) ∧
        (a ≠ 0 →
          (display_final_comparison ss vs st vt).1[k]? = some (Advantage.fin (b / a))))) ∧
    ((st = 0 → vt ≠ 0 → (display_final_comparison ss vs st vt).2 = Advantage.inf) ∧
      (st ≠ 0 → (display_final_comparison ss vs st vt).2 = Advantage.fin (vt / st))) := by
  constructor
  · intro k a b ha hb
    have hz := zipWith_getElem?_eq ss vs k a b ha hb
    constructor
    · intro ha0 _
      rw [show (display_final_comparison ss vs st vt).1 = List.zipWith advantage ss vs
        from rfl, hz]
      rw [show advantage a b = Advantage.inf from by
        unfold advantage
        rw [ha0, if_neg (lt_irrefl 0)]]
    · intro hane
      have hapos : 0 < a := lt_of_le_of_ne (hss a (List.getElem?_mem ha)) (Ne.symm hane)
      rw [show (display_final_comparison ss vs st vt).1 = List.zipWith advantage ss vs
        from rfl, hz]
      rw [show advantage a b = Advantage.fin (b / a) from by
        unfold advantage
        rw [if_pos hapos]]
  · constructor
    · intro hst0 _
      show advantage st vt = Advantage.inf
      unfold advantage
      rw [hst0, if_neg (lt_irrefl 0)]
    · intro hstne
      have hstpos : 0 < st := lt_of_le_of_ne hst (Ne.symm hstne)
      show advantage st vt = Advantage.fin (vt / st)
      unfold advantage
      rw [if_pos hstpos]

theorem c7_comparison_ratio_witness :
    (display_final_comparison [0] [(3 : ℚ)/5] 0 ((3 : ℚ)/5)).2 = Advantage.inf :=
  (c7_comparison_ratio [0] [(3 : ℚ)/5] 0 ((3 : ℚ)/5) (by norm_num) (le_refl 0)).2.1
    rfl (by norm_num)

/-- C8: applying the oracle's operation sequence twice in succession
restores every starting state exactly (global phase 1): the trailing
bit-flips of the first application cancel the leading bit-flips of the
second, and the two conditional-phase primitives cancel. -/
theorem c8_oracle_self_inverse (t : List Char) (ψ : QState) :
    applyC (apply_oracle t ++ apply_oracle t) ψ = ψ :=
  applyC_oracle_twice t ψ

/-- C9: deleting all decoupling-pulse pairs from the Augmented circuit
yields the Baseline circuit operation for operation, and consequently the
two circuits act identically on every amplitude vector, so under an
idealized noiseless backend they produce the same success-rate
distribution. -/
theorem c9_pulse_removal_equivalence (t : List Char) (n : ℕ) :
    cancelDD (create_vermicular t n) = create_standard_grover t n ∧
    ∀ ψ : QState, applyC (create_vermicular t n) ψ = applyC (create_standard_grover t n) ψ := by
  refine ⟨cancelDD_vermicular t n, ?_⟩
  intro ψ
  rw [← cancelDD_vermicular t n, applyC_cancelDD]

/-- C10: for at least one iteration, the Augmented circuit has exactly
4 * (iterations + 1) more operations than the Baseline circuit for the
same target and iteration count: 4 before the first oracle, 4 after the
final diffusion, and 4 between each consecutive pair of iterations. -/
theorem c10_depth_overhead (t : List Char) (n : ℕ) (hn : 1 ≤ n) :
    (create_vermicular t n).length = (create_standard_grover t n).length + 4 * (n + 1) := by
  cases n with
  | zero => exact absurd hn (by omega)
  | succ m =>
    rw [vermicular_structure, blocksJoinedBy_succ_eq, create_standard_grover]
    simp only [List.length_append, superpos, ddAll, ddPulse, List.length_cons,
      List.length_nil, List.length_flatten, List.map_replicate, List.sum_replicate,
      smul_eq_mul]
    ring

theorem c10_depth_overhead_witness :
    (create_vermicular ['0','0'] 1).length =
      (create_standard_grover ['0','0'] 1).length + 4 * (1 + 1) :=
  c10_depth_overhead ['0','0'] 1 (by decide)

end DbVs
